import Mathlib

/-!
Verification of the frame-sampling and cross-frame product aggregation core of
`src/backend/app.py` (AI-Product-Imagery).  The Python source is shallowly
embedded: Python `dict`s (insertion-ordered, update-in-place) become
association lists, Python strings become Lean `String`/`List Char`, the opaque
JPEG pixel buffers become an abstract `Nat` payload, and the external model
calls (classifier, prompt builder, image generator) become explicit oracle
arguments.  Machine-irrelevant floats (frame timestamps) are carried as an
opaque `Int` field: no claim inspects their numeric value.
-/

set_option maxRecDepth 100000

namespace AIPI

/-! ### Insertion-ordered dictionaries (Python `dict` semantics)

`dget d k` is `d.get(k)`; `dset d k v` is `d[k] = v`: it updates the value in
place when the key is present (keeping its position) and appends otherwise. -/

def dget {β : Type} (d : List (String × β)) (k : String) : Option β :=
  match d with
  | [] => none
  | (k', v) :: rest => if k' = k then some v else dget rest k

def dset {β : Type} (d : List (String × β)) (k : String) (v : β) :
    List (String × β) :=
  match d with
  | [] => [(k, v)]
  | (k', v') :: rest => if k' = k then (k, v) :: rest else (k', v') :: dset rest k v

theorem dget_dset_self {β : Type} (d : List (String × β)) (k : String) (v : β) :
    dget (dset d k v) k = some v := by
  induction d with
  | nil => simp [dget, dset]
  | cons hd tl ih =>
    obtain ⟨k', v'⟩ := hd
    by_cases h : k' = k
    · simp [dget, dset, h]
    · simp [dget, dset, h, ih]

theorem dget_dset_ne {β : Type} (d : List (String × β)) (k k' : String) (v : β)
    (h : k' ≠ k) : dget (dset d k v) k' = dget d k' := by
  induction d with
  | nil => simp [dget, dset, Ne.symm h]
  | cons hd tl ih =>
    obtain ⟨k₀, v₀⟩ := hd
    by_cases h0 : k₀ = k
    · subst h0
      simp [dset, dget, Ne.symm h]
    · simp [dset, dget, h0, ih]

theorem mem_dset {β : Type} (d : List (String × β)) (k : String) (v : β)
    (x : String × β) (hx : x ∈ dset d k v) : x = (k, v) ∨ x ∈ d := by
  induction d with
  | nil => simpa [dset] using hx
  | cons hd tl ih =>
    obtain ⟨k₀, v₀⟩ := hd
    by_cases h0 : k₀ = k
    · simp only [dset, if_pos h0, List.mem_cons] at hx
      rcases hx with h | h
      · exact Or.inl h
      · exact Or.inr (List.mem_cons_of_mem _ h)
    · simp only [dset, if_neg h0, List.mem_cons] at hx
      rcases hx with h | h
      · exact Or.inr (by simp [h])
      · rcases ih h with h' | h'
        · exact Or.inl h'
        · exact Or.inr (List.mem_cons_of_mem _ h')

/-! ### FrameSampler

`app.py` lines 217-220:
```
sampled_frames = frames[::5] if len(frames) > 5 else frames
if len(sampled_frames) > 50:
    step = len(sampled_frames) // 50
    sampled_frames = sampled_frames[::step][:50]
```
`everyNth l n` is the Python extended slice `l[::n]` (elements at indices
`0, n, 2n, ...`), implemented with a skip counter so that it reduces
structurally. -/

def everyNthAux {α : Type} (n : Nat) : List α → Nat → List α
  | [], _ => []
  | x :: xs, 0 => x :: everyNthAux n xs (n - 1)
  | _ :: xs, k + 1 => everyNthAux n xs k

def everyNth {α : Type} (l : List α) (n : Nat) : List α :=
  everyNthAux n l 0

def sample_frames {α : Type} (frames : List α) : List α :=
  let sampled := if frames.length > 5 then everyNth frames 5 else frames
  if sampled.length > 50 then
    (everyNth sampled (sampled.length / 50)).take 50
  else
    sampled

theorem everyNthAux_sublist {α : Type} (n : Nat) (l : List α) (k : Nat) :
    (everyNthAux n l k).Sublist l := by
  induction l generalizing k with
  | nil => simp [everyNthAux]
  | cons x xs ih =>
    cases k with
    | zero => exact (ih (n - 1)).cons₂ x
    | succ k => exact (ih k).cons x

theorem everyNth_sublist {α : Type} (l : List α) (n : Nat) :
    (everyNth l n).Sublist l := everyNthAux_sublist n l 0

theorem sample_frames_sublist {α : Type} (frames : List α) :
    (sample_frames frames).Sublist frames := by
  unfold sample_frames
  by_cases h5 : frames.length > 5
  · simp only [if_pos h5]
    by_cases h50 : (everyNth frames 5).length > 50
    · simp only [if_pos h50]
      exact ((List.take_sublist _ _).trans (everyNth_sublist _ _)).trans
        (everyNth_sublist _ _)
    · simp only [if_neg h50]
      exact everyNth_sublist _ _
  · simp only [if_neg h5]
    by_cases h50 : frames.length > 50
    · simp only [if_pos h50]
      exact (List.take_sublist _ _).trans (everyNth_sublist _ _)
    · simp only [if_neg h50]
      exact List.Sublist.refl _

theorem sample_frames_le_50 {α : Type} (frames : List α) :
    (sample_frames frames).length ≤ 50 := by
  unfold sample_frames
  by_cases h5 : frames.length > 5
  · simp only [if_pos h5]
    by_cases h50 : (everyNth frames 5).length > 50
    · simp [if_pos h50]
    · simp only [if_neg h50]
      omega
  · simp only [if_neg h5]
    by_cases h50 : frames.length > 50
    · omega
    · simp only [if_neg h50]
      omega

theorem sample_frames_small {α : Type} (frames : List α)
    (h : frames.length ≤ 5) : sample_frames frames = frames := by
  unfold sample_frames
  have h5 : ¬ frames.length > 5 := by omega
  have h50 : ¬ frames.length > 50 := by omega
  simp [h5, h50]

/-! ### Data model

`extract_frames` produces dicts `{frame_number, timestamp, image}`.  The image
is an opaque pixel buffer (`Nat` stand-in); the float timestamp is carried as
an opaque `Int` stand-in, never computed with. -/

structure Frame where
  frame_number : Nat
  timestamp : Int
  image : Nat
deriving Repr, DecidableEq

/-- Modelled abstractly: `image_to_base64` (app.py lines 69-72) JPEG-encodes
and base64-encodes the opaque pixel buffer.  Image transcoding is an external
collaborator (spec section 1), so the encoding is modelled as the identity on
the opaque image representation. -/
def image_to_base64 (image : Nat) : Nat := image

/-- The per-product record stored in the `best_frames` dict
(app.py lines 321-326). -/
structure BestFrame where
  frame_number : Nat
  timestamp : Int
  quality_score : Int
  image_base64 : Nat
deriving Repr, DecidableEq

/-- The per-product record stored in the `products` dict (app.py lines
327-331), including the optional enhancement fields attached later by
`process_video` (lines 412, 421). -/
structure Product where
  title : String
  name : String
  best_frame : BestFrame
  enhanced_image_base64 : Option String := none
  enhanced_image_path : Option String := none
deriving Repr, DecidableEq

/-- Claim C2: the frame sampler returns a subsequence of at most 50 frames
in original order; `N ≤ 5` returns all frames; for `N > 5` the every-5th rule
applies (with the further `floor(count/50)` stride only when the count still
exceeds 50); concretely `N = 3` returns all 3, `N = 12` returns original
indices 0, 5, 10, and `N = 300` returns exactly 50 frames. -/
theorem frame_sampler_spec :
    (∀ (α : Type) (l : List α),
        (sample_frames l).Sublist l ∧
        (sample_frames l).length ≤ 50 ∧
        (l.length ≤ 5 → sample_frames l = l) ∧
        (l.length > 5 → (everyNth l 5).length ≤ 50 →
          sample_frames l = everyNth l 5) ∧
        (l.length > 5 → (everyNth l 5).length > 50 →
          sample_frames l =
            (everyNth (everyNth l 5) ((everyNth l 5).length / 50)).take 50)) ∧
    sample_frames (List.range 3) = [0, 1, 2] ∧
    sample_frames (List.range 12) = [0, 5, 10] ∧
    (sample_frames (List.range 300)).length = 50 := by
  refine ⟨fun α l => ⟨sample_frames_sublist l, sample_frames_le_50 l,
    sample_frames_small l, ?_, ?_⟩, by decide, by decide, by decide⟩
  · intro h5 h50
    unfold sample_frames
    have h50' : ¬ (everyNth l 5).length > 50 := by omega
    simp [h5, h50']
  · intro h5 h50
    unfold sample_frames
    simp [h5, h50]

/-- Witness for `frame_sampler_spec`: a 7-frame input triggers the every-5th
rule with no second stride. -/
theorem frame_sampler_spec_witness :
    sample_frames [0, 1, 2, 3, 4, 5, 6] = everyNth [0, 1, 2, 3, 4, 5, 6] 5 :=
  (frame_sampler_spec.1 ℕ [0, 1, 2, 3, 4, 5, 6]).2.2.2.1 (by decide) (by decide)

/-! ### Strings: Python `.lower()` and substring containment (`in`) -/

def pyLower (s : String) : String := String.mk (s.data.map Char.toLower)

/-- Python `needle in hay` on strings: `needle` occurs contiguously in `hay`
(the empty needle is contained in everything). -/
def containsSub (hay needle : List Char) : Bool :=
  (List.range (hay.length + 1)).any fun i => needle.isPrefixOf (hay.drop i)

/-! ### ProductAggregator

`app.py` lines 312-343.  The two insertion-ordered dicts `products` and
`best_frames` are the whole mutable state of one `analyze_frames` run. -/

structure AggState where
  products : List (String × Product)
  best_frames : List (String × BestFrame)
deriving Repr, DecidableEq

def initState : AggState := ⟨[], []⟩

def mkBestFrame (f : Frame) (q : Int) : BestFrame :=
  ⟨f.frame_number, f.timestamp, q, image_to_base64 f.image⟩

/-- Score adjustment, app.py lines 316-318:
```
if product_title and product_title.lower() not in product_name.lower():
    quality_score = max(0, quality_score - 3)
```
(An absent `product_title` is `None`, hence falsy; an empty string is also
falsy in Python, but the empty needle is contained in every string, so the
branch is equivalently never demoting there.) -/
def adjust (product_title : Option String) (product_name : String) (q : Int) : Int :=
  match product_title with
  | none => q
  | some t =>
    if containsSub (pyLower product_name).data (pyLower t).data then q
    else max 0 (q - 3)

/-- One aggregator observation, app.py lines 313-343, for a detection whose
`name` and `quality_score` fields have already been extracted (with defaults
applied). -/
def observeCore (product_title : Option String) (f : Frame) (st : AggState)
    (product_name : String) (q0 : Int) : AggState :=
  let quality_score := adjust product_title product_name q0
  match dget st.best_frames product_name with
  | none =>
    let bf := mkBestFrame f quality_score
    { best_frames := dset st.best_frames product_name bf,
      products := dset st.products product_name
        { title := product_name, name := product_name, best_frame := bf } }
  | some old =>
    if quality_score > old.quality_score then
      let bf := mkBestFrame f quality_score
      { best_frames := dset st.best_frames product_name bf,
        products :=
          match dget st.products product_name with
          | some p =>
              dset st.products product_name
                { p with best_frame := bf, title := product_name }
          | none => st.products }
    else st

/-- A detection-stream observation: the frame being analyzed, the (defaulted)
product name and the raw quality score of one detection. -/
abbrev Obs := Frame × String × Int

def obsName (o : Obs) : String := o.2.1

def obsScore (pt : Option String) (o : Obs) : Int := adjust pt o.2.1 o.2.2

/-- The aggregation fold over a detection stream. -/
def runAgg (pt : Option String) (st : AggState) (obs : List Obs) : AggState :=
  obs.foldl (fun st o => observeCore pt o.1 st o.2.1 o.2.2) st

theorem observeCore_keeps_key (pt : Option String) (f : Frame) (st : AggState)
    (name : String) (q0 : Int) :
    (dget (observeCore pt f st name q0).best_frames name).isSome := by
  unfold observeCore
  cases h : dget st.best_frames name with
  | none => simp [dget_dset_self]
  | some old =>
    by_cases hq : adjust pt name q0 > old.quality_score
    · simp [hq, dget_dset_self]
    · simp [hq, h]

def demoFrame : Frame := ⟨0, 0, 0⟩

/-- Claim C4: with a target product name set, a detection whose name
contains the target (case-insensitively) keeps its quality score, any other
detection is demoted to `max 0 (score − 3)` but still stored; concretely,
with target "iPhone 15" a "Phone Case" detection at score 8 is stored at 5
while "iPhone 15 Pro" keeps 8. -/
theorem target_filter_demotion :
    (∀ (t name : String) (q : Int),
        (containsSub (pyLower name).data (pyLower t).data = true →
          adjust (some t) name q = q) ∧
        (containsSub (pyLower name).data (pyLower t).data = false →
          adjust (some t) name q = max 0 (q - 3))) ∧
    adjust (some "iPhone 15") "Phone Case" 8 = 5 ∧
    adjust (some "iPhone 15") "iPhone 15 Pro" 8 = 8 ∧
    dget (observeCore (some "iPhone 15") demoFrame initState "Phone Case" 8).best_frames
        "Phone Case" = some (mkBestFrame demoFrame 5) ∧
    (∀ (pt : Option String) (f : Frame) (st : AggState) (name : String) (q0 : Int),
        (dget (observeCore pt f st name q0).best_frames name).isSome) := by
  refine ⟨fun t name q => ⟨fun h => ?_, fun h => ?_⟩, by decide, by decide,
    by decide, observeCore_keeps_key⟩
  · simp [adjust, h]
  · simp [adjust, h]

/-- Witness for `target_filter_demotion`: the matching branch at a concrete
input. -/
theorem target_filter_demotion_witness :
    adjust (some "Mug") "Red Mug" 7 = 7 :=
  (target_filter_demotion.1 "Mug" "Red Mug" 7).1 (by decide)

/-! ### The best-frame invariant (claim C1) -/

/-- The adjusted scores observed for `name` in a detection stream. -/
def adjScores (pt : Option String) (name : String) (obs : List Obs) : List Int :=
  (obs.filter fun o => obsName o == name).map (obsScore pt)

theorem adjScores_append_one (pt : Option String) (name : String)
    (hist : List Obs) (o : Obs) :
    adjScores pt name (hist ++ [o]) =
      adjScores pt name hist ++
        (if obsName o = name then [obsScore pt o] else []) := by
  by_cases h : obsName o = name <;>
    simp [adjScores, List.filter_append, h]

theorem obsScore_mem_adjScores (pt : Option String) (name : String)
    (hist : List Obs) (o : Obs) (ho : o ∈ hist) (hn : obsName o = name) :
    obsScore pt o ∈ adjScores pt name hist := by
  simp only [adjScores, List.mem_map, List.mem_filter]
  exact ⟨o, ⟨ho, by simp [hn]⟩, rfl⟩

/-- The running invariant of the aggregation fold: for every product name,
the stored best frame carries the maximum adjusted score seen so far, and is
built from the earliest observation achieving that maximum. -/
def BestInv (pt : Option String) (hist : List Obs) (st : AggState) : Prop :=
  ∀ name : String,
    (dget st.best_frames name = none → adjScores pt name hist = []) ∧
    (∀ bf, dget st.best_frames name = some bf →
      bf.quality_score ∈ adjScores pt name hist ∧
      (∀ s ∈ adjScores pt name hist, s ≤ bf.quality_score) ∧
      ∃ pre f q post,
        hist = pre ++ (f, name, q) :: post ∧
        adjust pt name q = bf.quality_score ∧
        bf = mkBestFrame f (adjust pt name q) ∧
        ∀ o ∈ pre, obsName o = name → obsScore pt o < bf.quality_score)

theorem dget_observeCore_bf_ne (pt : Option String) (f : Frame) (st : AggState)
    (k : String) (q0 : Int) (name : String) (h : name ≠ k) :
    dget (observeCore pt f st k q0).best_frames name =
      dget st.best_frames name := by
  unfold observeCore
  cases hd : dget st.best_frames k with
  | none => simp [dget_dset_ne _ _ _ _ h]
  | some old =>
    by_cases hq : adjust pt k q0 > old.quality_score
    · simp [hq, dget_dset_ne _ _ _ _ h]
    · simp [hq]

theorem dget_observeCore_bf_none (pt : Option String) (f : Frame)
    (st : AggState) (k : String) (q0 : Int)
    (hd : dget st.best_frames k = none) :
    dget (observeCore pt f st k q0).best_frames k =
      some (mkBestFrame f (adjust pt k q0)) := by
  unfold observeCore
  simp [hd, dget_dset_self]

theorem dget_observeCore_bf_some (pt : Option String) (f : Frame)
    (st : AggState) (k : String) (q0 : Int) (old : BestFrame)
    (hd : dget st.best_frames k = some old) :
    dget (observeCore pt f st k q0).best_frames k =
      some (if adjust pt k q0 > old.quality_score
            then mkBestFrame f (adjust pt k q0) else old) := by
  unfold observeCore
  by_cases hq : adjust pt k q0 > old.quality_score
  · simp [hd, hq, dget_dset_self]
  · simp [hd, hq]

theorem bestInv_nil (pt : Option String) : BestInv pt [] initState := by
  intro name
  constructor
  · intro _; rfl
  · intro bf h
    simp [initState, dget] at h

theorem bestInv_step (pt : Option String) (hist : List Obs) (st : AggState)
    (hinv : BestInv pt hist st) (o : Obs) :
    BestInv pt (hist ++ [o]) (observeCore pt o.1 st o.2.1 o.2.2) := by
  obtain ⟨f, k, q0⟩ := o
  intro name
  by_cases hk : name = k
  · subst hk
    cases hd : dget st.best_frames name with
    | none =>
      have hempty : adjScores pt name hist = [] := (hinv name).1 hd
      have hres := dget_observeCore_bf_none pt f st name q0 hd
      constructor
      · intro hcon
        rw [hres] at hcon
        exact absurd hcon (by simp)
      · intro bf hbf
        rw [hres] at hbf
        have hbf' : bf = mkBestFrame f (adjust pt name q0) := by
          injection hbf with h'; exact h'.symm
        subst hbf'
        have hsc : adjScores pt name (hist ++ [(f, name, q0)]) =
            [adjust pt name q0] := by
          rw [adjScores_append_one, hempty]
          simp [obsName, obsScore]
        refine ⟨by simp [hsc, mkBestFrame], ?_, hist, f, q0, [], by simp,
          rfl, rfl, ?_⟩
        · intro s hs
          rw [hsc] at hs
          simp at hs
          simp [hs, mkBestFrame]
        · intro o ho hon
          have := obsScore_mem_adjScores pt name hist o ho hon
          rw [hempty] at this
          exact absurd this (by simp)
    | some old =>
      obtain ⟨hmem, hmax, pre, f', q', post, hdec, hadj, hbf_eq, hpre⟩ :=
        (hinv name).2 old hd
      have hres := dget_observeCore_bf_some pt f st name q0 old hd
      have hsc : adjScores pt name (hist ++ [(f, name, q0)]) =
          adjScores pt name hist ++ [adjust pt name q0] := by
        rw [adjScores_append_one]
        simp [obsName, obsScore]
      constructor
      · intro hcon
        rw [hres] at hcon
        exact absurd hcon (by simp)
      · intro bf hbf
        rw [hres] at hbf
        by_cases hq : adjust pt name q0 > old.quality_score
        · rw [if_pos hq] at hbf
          have hbf' : bf = mkBestFrame f (adjust pt name q0) := by
            injection hbf with h'; exact h'.symm
          subst hbf'
          refine ⟨by simp [hsc, mkBestFrame], ?_, hist, f, q0, [], by simp,
            rfl, rfl, ?_⟩
          · intro s hs
            rw [hsc] at hs
            rcases List.mem_append.mp hs with hs | hs
            · have := hmax s hs
              simp only [mkBestFrame]
              omega
            · simp at hs
              simp [hs, mkBestFrame]
          · intro o ho hon
            have := hmax _ (obsScore_mem_adjScores pt name hist o ho hon)
            simp only [mkBestFrame]
            omega
        · rw [if_neg hq] at hbf
          have hbf' : bf = old := by injection hbf with h'; exact h'.symm
          subst hbf'
          refine ⟨by rw [hsc]; exact List.mem_append.mpr (Or.inl hmem), ?_,
            pre, f', q', post ++ [(f, name, q0)], by rw [hdec]; simp,
            hadj, hbf_eq, hpre⟩
          intro s hs
          rw [hsc] at hs
          rcases List.mem_append.mp hs with hs | hs
          · exact hmax s hs
          · simp at hs
            omega
  · have hres := dget_observeCore_bf_ne pt f st k q0 name hk
    have hsc : adjScores pt name (hist ++ [(f, k, q0)]) =
        adjScores pt name hist := by
      rw [adjScores_append_one]
      simp [obsName, Ne.symm hk]
    constructor
    · intro hcon
      rw [hres] at hcon
      rw [hsc]
      exact (hinv name).1 hcon
    · intro bf hbf
      rw [hres] at hbf
      obtain ⟨hmem, hmax, pre, f', q', post, hdec, hadj, hbf_eq, hpre⟩ :=
        (hinv name).2 bf hbf
      refine ⟨by rw [hsc]; exact hmem, by rw [hsc]; exact hmax,
        pre, f', q', post ++ [(f, k, q0)], by rw [hdec]; simp,
        hadj, hbf_eq, hpre⟩

theorem runAgg_cons (pt : Option String) (st : AggState) (o : Obs)
    (rest : List Obs) :
    runAgg pt st (o :: rest) = runAgg pt (observeCore pt o.1 st o.2.1 o.2.2) rest :=
  rfl

theorem runAgg_append (pt : Option String) (st : AggState)
    (a b : List Obs) :
    runAgg pt st (a ++ b) = runAgg pt (runAgg pt st a) b := by
  simp [runAgg, List.foldl_append]

theorem bestInv_run (pt : Option String) (obs : List Obs) :
    ∀ (hist : List Obs) (st : AggState), BestInv pt hist st →
      BestInv pt (hist ++ obs) (runAgg pt st obs) := by
  induction obs with
  | nil => intro hist st h; simpa [runAgg] using h
  | cons o rest ih =>
    intro hist st h
    have h1 := bestInv_step pt hist st h o
    have h2 := ih (hist ++ [o]) _ h1
    rw [runAgg_cons]
    simpa using h2

theorem score_mono_step (pt : Option String) (f : Frame) (st : AggState)
    (k : String) (q0 : Int) (name : String) (bf : BestFrame)
    (h : dget st.best_frames name = some bf) :
    ∃ bf', dget (observeCore pt f st k q0).best_frames name = some bf' ∧
      bf.quality_score ≤ bf'.quality_score := by
  by_cases hk : name = k
  · subst hk
    rw [dget_observeCore_bf_some pt f st name q0 bf h]
    by_cases hq : adjust pt name q0 > bf.quality_score
    · exact ⟨_, rfl, by simp [hq, mkBestFrame]; omega⟩
    · exact ⟨_, rfl, by simp [hq]⟩
  · exact ⟨bf, by rw [dget_observeCore_bf_ne pt f st k q0 name hk]; exact h,
      le_refl _⟩

theorem score_mono_run (pt : Option String) (more : List Obs) :
    ∀ (st : AggState) (name : String) (bf : BestFrame),
      dget st.best_frames name = some bf →
      ∃ bf', dget (runAgg pt st more).best_frames name = some bf' ∧
        bf.quality_score ≤ bf'.quality_score := by
  induction more with
  | nil => intro st name bf h; exact ⟨bf, h, le_refl _⟩
  | cons o rest ih =>
    intro st name bf h
    obtain ⟨bf1, h1, hle1⟩ := score_mono_step pt o.1 st o.2.1 o.2.2 name bf h
    obtain ⟨bf2, h2, hle2⟩ := ih _ name bf1 h1
    exact ⟨bf2, by rw [runAgg_cons]; exact h2, le_trans hle1 hle2⟩

/-- Claim C1: after the aggregator processes any detection stream, every
stored best frame carries the maximum adjusted score observed for its product
name, it was built from the earliest observation achieving that maximum (all
earlier same-name observations score strictly less), and the stored score
never decreases as more detections arrive. -/
theorem aggregation_best_frame_invariant (pt : Option String) (obs : List Obs)
    (name : String) (bf : BestFrame)
    (h : dget (runAgg pt initState obs).best_frames name = some bf) :
    (bf.quality_score ∈ adjScores pt name obs ∧
      ∀ s ∈ adjScores pt name obs, s ≤ bf.quality_score) ∧
    (∃ pre f q post,
        obs = pre ++ (f, name, q) :: post ∧
        adjust pt name q = bf.quality_score ∧
        bf = mkBestFrame f (adjust pt name q) ∧
        ∀ o ∈ pre, obsName o = name → obsScore pt o < bf.quality_score) ∧
    (∀ more, ∃ bf',
        dget (runAgg pt initState (obs ++ more)).best_frames name = some bf' ∧
        bf.quality_score ≤ bf'.quality_score) := by
  have hinv := bestInv_run pt obs [] initState (bestInv_nil pt)
  simp only [List.nil_append] at hinv
  obtain ⟨hmem, hmax, hdec⟩ := (hinv name).2 bf h
  refine ⟨⟨hmem, hmax⟩, hdec, ?_⟩
  intro more
  rw [runAgg_append]
  exact score_mono_run pt more _ name bf h

/-- Witness for `aggregation_best_frame_invariant`: two equal-score "Lamp"
detections at frames 2 then 7 retain the earlier frame 2, and the stored
score 7 is the maximum of the stream. -/
theorem aggregation_best_frame_invariant_witness :
    ((7 : Int) ∈ adjScores none "Lamp"
        [(⟨2, 0, 0⟩, "Lamp", 7), (⟨7, 0, 1⟩, "Lamp", 7)] ∧
      ∀ s ∈ adjScores none "Lamp"
        [(⟨2, 0, 0⟩, "Lamp", 7), (⟨7, 0, 1⟩, "Lamp", 7)], s ≤ (7 : Int)) ∧
    (∃ pre f q post,
        [((⟨2, 0, 0⟩ : Frame), "Lamp", (7 : Int)), (⟨7, 0, 1⟩, "Lamp", 7)] =
          pre ++ (f, "Lamp", q) :: post ∧
        adjust none "Lamp" q = (7 : Int) ∧
        (⟨2, 0, 7, 0⟩ : BestFrame) = mkBestFrame f (adjust none "Lamp" q) ∧
        ∀ o ∈ pre, obsName o = "Lamp" → obsScore none o < (7 : Int)) ∧
    (∀ more, ∃ bf',
        dget (runAgg none initState
          ([(⟨2, 0, 0⟩, "Lamp", 7), (⟨7, 0, 1⟩, "Lamp", 7)] ++ more)).best_frames
          "Lamp" = some bf' ∧
        (7 : Int) ≤ bf'.quality_score) := by
  have := aggregation_best_frame_invariant none
    [(⟨2, 0, 0⟩, "Lamp", 7), (⟨7, 0, 1⟩, "Lamp", 7)] "Lamp"
    ⟨2, 0, 7, 0⟩ (by decide)
  simpa using this

/-! ### ResponseParser: `json.loads` model

`analyze_frames` feeds the cleaned classifier text to Python's strict
`json.loads`.  That standard-library decoder is modelled here by a
recursive-descent parser over `List Char` producing `JVal`.  Model
restrictions (irrelevant to every claim, all of whose inputs are plain
integer-valued JSON): numerals are decoded as integers only (Python also
accepts floats), `\u` string escapes are rejected, and leading zeros in
numerals are accepted. -/

inductive JVal where
  | jnull
  | jbool (b : Bool)
  | jnum (n : Int)
  | jstr (s : String)
  | jarr (elems : List JVal)
  | jobj (fields : List (String × JVal))
deriving Inhabited

def lbrace : Char := Char.ofNat 123

def rbrace : Char := Char.ofNat 125

/-- JSON inter-token whitespace (RFC 8259, as in Python's strict decoder). -/
def skipWs (l : List Char) : List Char :=
  l.dropWhile fun c => c == ' ' || c == '\t' || c == '\n' || c == '\r'

def escChar (c : Char) : Option Char :=
  if c = '"' then some '"'
  else if c = '\\' then some '\\'
  else if c = '/' then some '/'
  else if c = 'n' then some '\n'
  else if c = 't' then some '\t'
  else if c = 'r' then some '\r'
  else if c = 'b' then some (Char.ofNat 8)
  else if c = 'f' then some (Char.ofNat 12)
  else none

/-- Parse the body of a JSON string after the opening quote; returns the
decoded characters and the remaining input after the closing quote. -/
def parseStringBody : Nat → List Char → Option (List Char × List Char)
  | 0, _ => none
  | _ + 1, [] => none
  | fuel + 1, c :: rest =>
    if c = '"' then some ([], rest)
    else if c = '\\' then
      match rest with
      | [] => none
      | e :: rest2 =>
        match escChar e with
        | none => none
        | some ec =>
          match parseStringBody fuel rest2 with
          | none => none
          | some (s, r) => some (ec :: s, r)
    else
      match parseStringBody fuel rest with
      | none => none
      | some (s, r) => some (c :: s, r)

def parseLit (lit : List Char) (v : JVal) (l : List Char) :
    Option (JVal × List Char) :=
  if lit.isPrefixOf l then some (v, l.drop lit.length) else none

def parseNumCore (neg : Bool) (l2 : List Char) : Option (JVal × List Char) :=
  let digits := l2.takeWhile Char.isDigit
  if digits.isEmpty then none
  else
    let n : Nat := digits.foldl (fun a c => a * 10 + (c.toNat - 48)) 0
    some (.jnum (if neg then -(n : Int) else (n : Int)), l2.drop digits.length)

def parseNum (l : List Char) : Option (JVal × List Char) :=
  match l with
  | c :: r => if c = '-' then parseNumCore true r else parseNumCore false l
  | [] => parseNumCore false l

mutual

def parseVal : Nat → List Char → Option (JVal × List Char)
  | 0, _ => none
  | fuel + 1, input =>
    match skipWs input with
    | [] => none
    | c :: rest =>
      if c = lbrace then
        match skipWs rest with
        | c2 :: rest2 =>
          if c2 = rbrace then some (.jobj [], rest2)
          else parseMembers fuel (c2 :: rest2) []
        | [] => none
      else if c = '[' then
        match skipWs rest with
        | c2 :: rest2 =>
          if c2 = ']' then some (.jarr [], rest2)
          else
            match parseVal fuel (c2 :: rest2) with
            | some (v, r) => parseElems fuel r [v]
            | none => none
        | [] => none
      else if c = '"' then
        match parseStringBody (rest.length + 1) rest with
        | some (s, r) => some (.jstr (String.mk s), r)
        | none => none
      else if c = 't' then parseLit "true".data (.jbool true) (c :: rest)
      else if c = 'f' then parseLit "false".data (.jbool false) (c :: rest)
      else if c = 'n' then parseLit "null".data .jnull (c :: rest)
      else if c = '-' || c.isDigit then parseNum (c :: rest)
      else none

/-- Parse the members of an object after at least one member is known to
follow; accumulates with `dset` so that duplicate keys overwrite (Python
`dict` semantics). -/
def parseMembers : Nat → List Char → List (String × JVal) →
    Option (JVal × List Char)
  | 0, _, _ => none
  | fuel + 1, input, acc =>
    match skipWs input with
    | c :: rest =>
      if c = '"' then
        match parseStringBody (rest.length + 1) rest with
        | some (key, r1) =>
          match skipWs r1 with
          | ':' :: r2 =>
            match parseVal fuel r2 with
            | some (v, r3) =>
              match skipWs r3 with
              | ',' :: r4 => parseMembers fuel r4 (dset acc (String.mk key) v)
              | c5 :: r5 =>
                if c5 = rbrace then some (.jobj (dset acc (String.mk key) v), r5)
                else none
              | [] => none
            | none => none
          | _ => none
        | none => none
      else none
    | [] => none

/-- Parse the tail of an array after its first element. -/
def parseElems : Nat → List Char → List JVal → Option (JVal × List Char)
  | 0, _, _ => none
  | fuel + 1, input, acc =>
    match skipWs input with
    | ',' :: rest =>
      match parseVal fuel rest with
      | some (v, r) => parseElems fuel r (acc ++ [v])
      | none => none
    | ']' :: rest => some (.jarr acc, rest)
    | _ => none

end

/-- Python `json.loads`: one JSON document, with only whitespace around it. -/
def json_loads (l : List Char) : Option JVal :=
  match parseVal (l.length + 1) l with
  | some (v, rest) => if (skipWs rest).isEmpty then some v else none
  | none => none

/-! ### Response cleaning (app.py lines 291-306) -/

def pyStrip (l : List Char) : List Char :=
  ((l.dropWhile Char.isWhitespace).reverse.dropWhile Char.isWhitespace).reverse

/-- Python `hay.find(needle)`: index of the first occurrence. -/
def findSub (hay needle : List Char) : Option Nat :=
  (List.range (hay.length + 1)).find? fun i => needle.isPrefixOf (hay.drop i)

/-- Python `hay.find(needle, start)`. -/
def findSubFrom (hay needle : List Char) (start : Nat) : Option Nat :=
  (findSub (hay.drop start) needle).map (· + start)

/-- Python `hay.rfind(c)` for a single character: index of the last
occurrence. -/
def rfindChar (l : List Char) (c : Char) : Option Nat :=
  match l.reverse.findIdx? (fun x => x == c) with
  | none => none
  | some i => some (l.length - 1 - i)

/-- Code-fence slicing, app.py lines 292-301: when a ```json fence is
present, slice between it and the next fence and strip; otherwise the same
with a bare ``` fence; otherwise keep the text. -/
def fenceSlice (t : List Char) : List Char :=
  match findSub t ("```json").data with
  | some i =>
    match findSubFrom t ("```").data (i + 7) with
    | some e => if e > i + 7 then pyStrip ((t.take e).drop (i + 7)) else t
    | none => t
  | none =>
    match findSub t ("```").data with
    | some i =>
      match findSubFrom t ("```").data (i + 3) with
      | some e => if e > i + 3 then pyStrip ((t.take e).drop (i + 3)) else t
      | none => t
    | none => t

/-- Brace-span slicing, app.py lines 303-306: the span from the first `{`
to the last `}`, when both exist in that order. -/
def braceSlice (t2 : List Char) : List Char :=
  match t2.findIdx? (fun c => c == lbrace), rfindChar t2 rbrace with
  | some i, some j => if j + 1 > i then (t2.take (j + 1)).drop i else t2
  | _, _ => t2

/-- The response-text cleaning of app.py lines 291-306: strip, slice between
code-fence markers when present, then take the span from the first brace to
the last closing brace. -/
def clean_response (raw : List Char) : List Char :=
  braceSlice (fenceSlice (pyStrip raw))

/-! ### Per-frame analysis (app.py lines 274-353) -/

/-- `result.get('products', [])` followed by iterating over it: a non-object
result or a non-list `products` raises before iterating and the frame is
skipped with no detections, a missing `products` field defaults to `[]`. -/
def extractDetected (v : JVal) : Option (List JVal) :=
  match v with
  | .jobj fields =>
    match dget fields "products" with
    | some (.jarr xs) => some xs
    | some _ => none
    | none => some []
  | _ => none

/-- One parsed product entry consumed by the aggregator (app.py lines
312-343): `product_info.get('name', 'Unknown Product')` and
`product_info.get('quality_score', 0)` with their defaults, then the
aggregation step.  A non-object entry (or non-string name / non-integer
score, which Python surfaces as a mid-loop exception) yields `none`,
aborting the remainder of the frame's entries. -/
def observeJ (pt : Option String) (f : Frame) (st : AggState) (entry : JVal) :
    Option AggState :=
  match entry with
  | .jobj fields =>
    match (dget fields "name").getD (.jstr "Unknown Product"),
          (dget fields "quality_score").getD (.jnum 0) with
    | .jstr n, .jnum q => some (observeCore pt f st n q)
    | _, _ => none
  | _ => none

/-- Fold the aggregator over one frame's product entries; an entry that
raises aborts the loop but keeps the mutations made so far (the dicts are
outer-scope state in the source). -/
def processEntries (pt : Option String) (f : Frame) :
    AggState → List JVal → AggState
  | st, [] => st
  | st, e :: rest =>
    match observeJ pt f st e with
    | none => st
    | some st2 => processEntries pt f st2 rest

/-- One iteration of the `for idx, frame_data in enumerate(sampled_frames)`
loop: a failed classifier call (`.error`) or any parse failure leaves the
state untouched and the run continues. -/
def analyze_one_frame (pt : Option String) (st : AggState) (f : Frame)
    (response : Except Unit String) : AggState :=
  match response with
  | .error _ => st
  | .ok text =>
    match json_loads (clean_response text.data) with
    | none => st
    | some v =>
      match extractDetected v with
      | none => st
      | some detected => processEntries pt f st detected

/-- The whole `analyze_frames` fold, returning its final dict state.  The
classifier (an external collaborator) is an oracle from frames to either a
transport failure or raw response text. -/
def analyze_frames_state (frames : List Frame)
    (classify : Frame → Except Unit String) (product_title : Option String) :
    AggState :=
  (sample_frames frames).foldl
    (fun st f => analyze_one_frame product_title st f (classify f)) initState

/-- `analyze_frames` (app.py lines 214-353): the returned
`{'products': list(products.values())}` payload. -/
def analyze_frames (frames : List Frame)
    (classify : Frame → Except Unit String) (product_title : Option String) :
    List Product :=
  (analyze_frames_state frames classify product_title).products.map Prod.snd

/-! ### Parser tolerance (claim C3) -/

theorem mem_of_mem_dropWhile {α : Type} (p : α → Bool) (l : List α) (c : α)
    (h : c ∈ l.dropWhile p) : c ∈ l := by
  induction l with
  | nil => simp [List.dropWhile] at h
  | cons x xs ih =>
    by_cases hp : p x
    · rw [List.dropWhile_cons_of_pos hp] at h
      exact List.mem_cons_of_mem _ (ih h)
    · rw [List.dropWhile_cons_of_neg (by simpa using hp)] at h
      exact h

theorem mem_of_mem_pyStrip (l : List Char) (c : Char) (h : c ∈ pyStrip l) :
    c ∈ l := by
  unfold pyStrip at h
  rw [List.mem_reverse] at h
  have h2 := mem_of_mem_dropWhile _ _ _ h
  rw [List.mem_reverse] at h2
  exact mem_of_mem_dropWhile _ _ _ h2

theorem mem_of_mem_skipWs (l : List Char) (c : Char) (h : c ∈ skipWs l) :
    c ∈ l := mem_of_mem_dropWhile _ _ _ h

theorem mem_of_mem_take_drop (l : List Char) (a b : Nat) (c : Char)
    (h : c ∈ (l.take a).drop b) : c ∈ l :=
  List.take_subset _ _ (List.drop_subset _ _ h)

theorem mem_of_mem_fenceSlice (t : List Char) (c : Char)
    (h : c ∈ fenceSlice t) : c ∈ t := by
  unfold fenceSlice at h
  repeat' split at h
  all_goals
    first
      | exact h
      | exact mem_of_mem_take_drop _ _ _ _ (mem_of_mem_pyStrip _ _ h)

theorem mem_of_mem_braceSlice (t : List Char) (c : Char)
    (h : c ∈ braceSlice t) : c ∈ t := by
  unfold braceSlice at h
  repeat' split at h
  all_goals
    first
      | exact h
      | exact mem_of_mem_take_drop _ _ _ _ h

theorem mem_of_mem_clean_response (raw : List Char) (c : Char)
    (h : c ∈ clean_response raw) : c ∈ raw :=
  mem_of_mem_pyStrip _ _
    (mem_of_mem_fenceSlice _ _ (mem_of_mem_braceSlice _ _ h))

theorem parseLit_val (lit : List Char) (v v' : JVal) (l r : List Char)
    (h : parseLit lit v l = some (v', r)) : v' = v := by
  unfold parseLit at h
  split at h
  · injection h with h'
    exact (congrArg Prod.fst h').symm
  · exact absurd h (by simp)

theorem parseNumCore_jnum (neg : Bool) (l2 : List Char) (v : JVal)
    (r : List Char) (h : parseNumCore neg l2 = some (v, r)) :
    ∃ n, v = .jnum n := by
  unfold parseNumCore at h
  simp only at h
  by_cases hd : (l2.takeWhile Char.isDigit).isEmpty = true
  · rw [if_pos hd] at h
    exact absurd h (by simp)
  · rw [if_neg hd] at h
    injection h with h'
    exact ⟨_, (congrArg Prod.fst h').symm⟩

theorem parseNum_jnum (l : List Char) (v : JVal) (r : List Char)
    (h : parseNum l = some (v, r)) : ∃ n, v = .jnum n := by
  rcases l with _ | ⟨c, rest⟩
  · simp only [parseNum] at h
    exact parseNumCore_jnum _ _ _ _ h
  · simp only [parseNum] at h
    by_cases hc : c = '-'
    · rw [if_pos hc] at h
      exact parseNumCore_jnum _ _ _ _ h
    · rw [if_neg hc] at h
      exact parseNumCore_jnum _ _ _ _ h

theorem parseElems_jarr (fuel : Nat) :
    ∀ (l : List Char) (acc : List JVal) (v : JVal) (r : List Char),
      parseElems fuel l acc = some (v, r) → ∃ xs, v = .jarr xs := by
  induction fuel with
  | zero => intro l acc v r h; simp [parseElems] at h
  | succ fuel ih =>
    intro l acc v r h
    unfold parseElems at h
    split at h
    · split at h
      · exact ih _ _ _ _ h
      · exact absurd h (by simp)
    · injection h with h'
      exact ⟨_, (congrArg Prod.fst h').symm⟩
    · exact absurd h (by simp)

theorem parseVal_jobj_mem (fuel : Nat) (l : List Char)
    (fs : List (String × JVal)) (r : List Char)
    (h : parseVal fuel l = some (.jobj fs, r)) : lbrace ∈ l := by
  cases fuel with
  | zero => simp [parseVal] at h
  | succ fuel =>
    unfold parseVal at h
    rcases hsk : skipWs l with _ | ⟨c, rest⟩ <;> rw [hsk] at h
    · simp at h
    · simp only at h
      by_cases hc : c = lbrace
      · apply mem_of_mem_skipWs l
        rw [hsk, ← hc]
        exact List.mem_cons_self _ _
      · rw [if_neg hc] at h
        exfalso
        by_cases hc2 : c = '['
        · rw [if_pos hc2] at h
          rcases hsk2 : skipWs rest with _ | ⟨c2, rest2⟩ <;> rw [hsk2] at h
          · simp at h
          · simp only at h
            by_cases hc3 : c2 = ']'
            · rw [if_pos hc3] at h
              injection h with h'
              exact absurd (congrArg Prod.fst h') (by simp)
            · rw [if_neg hc3] at h
              rcases hpv : parseVal fuel (c2 :: rest2) with _ | ⟨v1, r1⟩ <;>
                rw [hpv] at h
              · simp at h
              · obtain ⟨xs, hxs⟩ := parseElems_jarr fuel _ _ _ _ h
                simp at hxs
        · rw [if_neg hc2] at h
          by_cases hc3 : c = '"'
          · rw [if_pos hc3] at h
            rcases hps : parseStringBody (rest.length + 1) rest with _ | ⟨s, r1⟩ <;>
              rw [hps] at h
            · simp at h
            · injection h with h'
              exact absurd (congrArg Prod.fst h') (by simp)
          · rw [if_neg hc3] at h
            by_cases hc4 : c = 't'
            · rw [if_pos hc4] at h
              have := parseLit_val _ _ _ _ _ h
              simp at this
            · rw [if_neg hc4] at h
              by_cases hc5 : c = 'f'
              · rw [if_pos hc5] at h
                have := parseLit_val _ _ _ _ _ h
                simp at this
              · rw [if_neg hc5] at h
                by_cases hc6 : c = 'n'
                · rw [if_pos hc6] at h
                  have := parseLit_val _ _ _ _ _ h
                  simp at this
                · rw [if_neg hc6] at h
                  by_cases hc7 : (c = '-' || c.isDigit) = true
                  · rw [if_pos hc7] at h
                    obtain ⟨n, hn⟩ := parseNum_jnum _ _ _ h
                    simp at hn
                  · rw [if_neg hc7] at h
                    simp at h

theorem json_loads_jobj_mem (l : List Char) (fs : List (String × JVal))
    (h : json_loads l = some (.jobj fs)) : lbrace ∈ l := by
  unfold json_loads at h
  rcases hp : parseVal (l.length + 1) l with _ | ⟨v, rest⟩ <;> rw [hp] at h
  · simp at h
  · simp only at h
    split at h
    · injection h with h'
      subst h'
      exact parseVal_jobj_mem _ _ _ _ hp
    · simp at h

theorem analyze_one_frame_ok (pt : Option String) (st : AggState) (f : Frame)
    (raw : String) :
    analyze_one_frame pt st f (.ok raw) =
      match json_loads (clean_response raw.data) with
      | none => st
      | some v =>
        match extractDetected v with
        | none => st
        | some detected => processEntries pt f st detected := rfl

/-- Claim C3: the parser slices fenced text, takes the brace span, then
strictly decodes; any decode failure, non-object payload or missing/empty
`products` field leaves the aggregation state untouched (the frame is
skipped, no exception escapes); brace-free input never mutates the state;
a fenced empty-products response decodes to the empty list; a well-formed
single-product response yields exactly that one detection. -/
theorem parser_tolerance :
    (∀ (pt : Option String) (st : AggState) (f : Frame) (raw : String),
        json_loads (clean_response raw.data) = none →
        analyze_one_frame pt st f (.ok raw) = st) ∧
    (∀ (pt : Option String) (st : AggState) (f : Frame) (raw : String)
        (v : JVal),
        json_loads (clean_response raw.data) = some v →
        extractDetected v = none ∨ extractDetected v = some [] →
        analyze_one_frame pt st f (.ok raw) = st) ∧
    (∀ (pt : Option String) (st : AggState) (f : Frame) (raw : String),
        lbrace ∉ raw.data →
        analyze_one_frame pt st f (.ok raw) = st) ∧
    json_loads (clean_response
        ("Here you go:\n```json\n\x7b\"products\": []\x7d\n```").data) =
      some (.jobj [("products", .jarr [])]) ∧
    analyze_one_frame none initState demoFrame
        (.ok "\x7b\"products\":[\x7b\"name\":\"Mug\",\"quality_score\":7,\"visible\":true\x7d]\x7d") =
      ⟨[("Mug", ⟨"Mug", "Mug", ⟨0, 0, 7, 0⟩, none, none⟩)],
       [("Mug", ⟨0, 0, 7, 0⟩)]⟩ := by
  refine ⟨?_, ?_, ?_, rfl, by decide⟩
  · intro pt st f raw h
    rw [analyze_one_frame_ok, h]
  · intro pt st f raw v h1 h2
    rw [analyze_one_frame_ok, h1]
    simp only
    rcases h2 with h2 | h2
    · rw [h2]
    · rw [h2]; rfl
  · intro pt st f raw hnb
    cases hjl : json_loads (clean_response raw.data) with
    | none =>
      rw [analyze_one_frame_ok, hjl]
    | some v =>
      cases v with
      | jobj fs =>
        exact absurd
          (mem_of_mem_clean_response _ _ (json_loads_jobj_mem _ _ hjl)) hnb
      | jnull => rw [analyze_one_frame_ok, hjl]; rfl
      | jbool b => rw [analyze_one_frame_ok, hjl]; rfl
      | jnum n => rw [analyze_one_frame_ok, hjl]; rfl
      | jstr s => rw [analyze_one_frame_ok, hjl]; rfl
      | jarr xs => rw [analyze_one_frame_ok, hjl]; rfl

/-- Witness for `parser_tolerance`: a brace-free response skips the frame. -/
theorem parser_tolerance_witness :
    analyze_one_frame none initState demoFrame (.ok "no json here") =
      initState :=
  parser_tolerance.2.2.1 none initState demoFrame "no json here" (by decide)

/-! ### Missing-field defaults (claim C7) -/

/-- Claim C7: a product entry missing `name` is recorded under the
sentinel "Unknown Product", a missing `quality_score` defaults to 0, and in
each case the observation proceeds (returns `some`) rather than aborting. -/
theorem missing_field_defaults :
    (∀ (pt : Option String) (f : Frame) (st : AggState)
        (fields : List (String × JVal)),
        dget fields "name" = none → dget fields "quality_score" = none →
        observeJ pt f st (.jobj fields) =
          some (observeCore pt f st "Unknown Product" 0)) ∧
    (∀ (pt : Option String) (f : Frame) (st : AggState)
        (fields : List (String × JVal)) (n : String),
        dget fields "name" = some (.jstr n) →
        dget fields "quality_score" = none →
        observeJ pt f st (.jobj fields) = some (observeCore pt f st n 0)) ∧
    (∀ (pt : Option String) (f : Frame) (st : AggState)
        (fields : List (String × JVal)) (q : Int),
        dget fields "name" = none →
        dget fields "quality_score" = some (.jnum q) →
        observeJ pt f st (.jobj fields) =
          some (observeCore pt f st "Unknown Product" q)) := by
  refine ⟨?_, ?_, ?_⟩
  · intro pt f st fields h1 h2
    simp [observeJ, h1, h2]
  · intro pt f st fields n h1 h2
    simp [observeJ, h1, h2]
  · intro pt f st fields q h1 h2
    simp [observeJ, h1, h2]

/-- Witness for `missing_field_defaults`: the empty product entry is stored
as "Unknown Product" with score 0. -/
theorem missing_field_defaults_witness :
    observeJ none demoFrame initState (.jobj []) =
      some (observeCore none demoFrame initState "Unknown Product" 0) :=
  missing_field_defaults.1 none demoFrame initState [] rfl rfl

/-! ### Title/name/key agreement (claim C9) -/

/-- Every product record's `title` and `name` fields equal its mapping key. -/
def TitleInv (st : AggState) : Prop :=
  ∀ name p, dget st.products name = some p → p.title = name ∧ p.name = name

theorem titleInv_init : TitleInv initState := by
  intro name p hp
  simp [initState, dget] at hp

theorem titleInv_observeCore (pt : Option String) (f : Frame) (st : AggState)
    (k : String) (q0 : Int) (h : TitleInv st) :
    TitleInv (observeCore pt f st k q0) := by
  intro name p hp
  unfold observeCore at hp
  cases hd : dget st.best_frames k with
  | none =>
    rw [hd] at hp
    simp only at hp
    by_cases hk : name = k
    · subst hk
      rw [dget_dset_self] at hp
      injection hp with hp'
      exact ⟨by rw [← hp'], by rw [← hp']⟩
    · rw [dget_dset_ne _ _ _ _ hk] at hp
      exact h name p hp
  | some old =>
    rw [hd] at hp
    simp only at hp
    by_cases hq : adjust pt k q0 > old.quality_score
    · rw [if_pos hq] at hp
      simp only at hp
      cases hp2 : dget st.products k with
      | none =>
        rw [hp2] at hp
        exact h name p hp
      | some p' =>
        rw [hp2] at hp
        by_cases hk : name = k
        · subst hk
          rw [dget_dset_self] at hp
          injection hp with hp'
          refine ⟨by rw [← hp'], ?_⟩
          rw [← hp']
          exact (h name p' hp2).2
        · rw [dget_dset_ne _ _ _ _ hk] at hp
          exact h name p hp
    · rw [if_neg hq] at hp
      exact h name p hp

theorem observeJ_some (pt : Option String) (f : Frame) (st : AggState)
    (e : JVal) (st' : AggState) (h : observeJ pt f st e = some st') :
    ∃ n q, st' = observeCore pt f st n q := by
  cases e with
  | jobj fields =>
    simp only [observeJ] at h
    split at h
    · injection h with h'
      exact ⟨_, _, h'.symm⟩
    · exact absurd h (by simp)
  | jnull => simp [observeJ] at h
  | jbool b => simp [observeJ] at h
  | jnum n => simp [observeJ] at h
  | jstr s => simp [observeJ] at h
  | jarr xs => simp [observeJ] at h

theorem titleInv_processEntries (pt : Option String) (f : Frame)
    (entries : List JVal) :
    ∀ st : AggState, TitleInv st → TitleInv (processEntries pt f st entries) := by
  induction entries with
  | nil => intro st h; exact h
  | cons e rest ih =>
    intro st h
    unfold processEntries
    cases he : observeJ pt f st e with
    | none => exact h
    | some st2 =>
      obtain ⟨n, q, hst2⟩ := observeJ_some pt f st e st2 he
      subst hst2
      exact ih _ (titleInv_observeCore pt f st n q h)

theorem titleInv_analyze_one_frame (pt : Option String) (st : AggState)
    (f : Frame) (response : Except Unit String) (h : TitleInv st) :
    TitleInv (analyze_one_frame pt st f response) := by
  cases response with
  | error e => exact h
  | ok raw =>
    rw [analyze_one_frame_ok]
    cases json_loads (clean_response raw.data) with
    | none => exact h
    | some v =>
      simp only
      cases extractDetected v with
      | none => exact h
      | some detected => exact titleInv_processEntries pt f detected st h

theorem titleInv_foldl (pt : Option String)
    (classify : Frame → Except Unit String) (fl : List Frame) :
    ∀ st : AggState, TitleInv st →
      TitleInv (fl.foldl
        (fun st f => analyze_one_frame pt st f (classify f)) st) := by
  induction fl with
  | nil => intro st h; exact h
  | cons f rest ih =>
    intro st h
    exact ih _ (titleInv_analyze_one_frame pt st f (classify f) h)

theorem titleInv_runAgg (pt : Option String) (obs : List Obs) :
    ∀ st : AggState, TitleInv st → TitleInv (runAgg pt st obs) := by
  induction obs with
  | nil => intro st h; exact h
  | cons o rest ih =>
    intro st h
    rw [runAgg_cons]
    exact ih _ (titleInv_observeCore pt o.1 st o.2.1 o.2.2 h)

/-- Claim C9: in every product record the aggregator ever produces —
whether reached through the full per-frame parse pipeline or through any raw
detection stream — the `title` field, the `name` field and the mapping key
are the same string. -/
theorem title_name_key_agree :
    (∀ (frames : List Frame) (classify : Frame → Except Unit String)
        (pt : Option String) (name : String) (p : Product),
        dget (analyze_frames_state frames classify pt).products name = some p →
        p.title = name ∧ p.name = name) ∧
    (∀ (pt : Option String) (obs : List Obs) (name : String) (p : Product),
        dget (runAgg pt initState obs).products name = some p →
        p.title = name ∧ p.name = name) := by
  constructor
  · intro frames classify pt name p hp
    exact titleInv_foldl pt classify (sample_frames frames) initState
      titleInv_init name p hp
  · intro pt obs name p hp
    exact titleInv_runAgg pt obs initState titleInv_init name p hp

/-- Witness for `title_name_key_agree`: a concrete one-detection stream. -/
theorem title_name_key_agree_witness :
    (⟨"Cup", "Cup", mkBestFrame demoFrame 5, none, none⟩ : Product).title =
        "Cup" ∧
      (⟨"Cup", "Cup", mkBestFrame demoFrame 5, none, none⟩ : Product).name =
        "Cup" :=
  title_name_key_agree.2 none [(demoFrame, "Cup", 5)] "Cup"
    ⟨"Cup", "Cup", mkBestFrame demoFrame 5, none, none⟩ (by decide)

/-! ### RankingStage (app.py line 385)

`sorted(products, key=lambda x: x.get('best_frame', {}).get('quality_score', 0),
reverse=True)`: a stable sort, descending on the best-frame quality score.
Python's stable sort is modelled by stable insertion: an element is placed
before the first strictly-smaller-scored element of the already-sorted
remainder, so original order is kept among equal scores.  Any stable
descending sort computes the same function (it is determined by being a
permutation, sorted, and score-class order-preserving). -/

def scoreOf (p : Product) : Int := p.best_frame.quality_score

def insertByScore (p : Product) : List Product → List Product
  | [] => [p]
  | q :: rest =>
    if scoreOf p ≥ scoreOf q then p :: q :: rest else q :: insertByScore p rest

def sorted_by_score_desc : List Product → List Product
  | [] => []
  | p :: rest => insertByScore p (sorted_by_score_desc rest)

theorem insertByScore_perm (p : Product) (l : List Product) :
    (insertByScore p l).Perm (p :: l) := by
  induction l with
  | nil => exact List.Perm.refl _
  | cons q rest ih =>
    unfold insertByScore
    by_cases h : scoreOf p ≥ scoreOf q
    · rw [if_pos h]
    · rw [if_neg h]
      exact (ih.cons q).trans (List.Perm.swap p q rest)

theorem sorted_by_score_desc_perm (l : List Product) :
    (sorted_by_score_desc l).Perm l := by
  induction l with
  | nil => exact List.Perm.refl _
  | cons p rest ih => exact (insertByScore_perm p _).trans (ih.cons p)

theorem pairwise_insertByScore (p : Product) (l : List Product)
    (h : List.Pairwise (fun a b => scoreOf b ≤ scoreOf a) l) :
    List.Pairwise (fun a b => scoreOf b ≤ scoreOf a) (insertByScore p l) := by
  induction l with
  | nil => simp [insertByScore]
  | cons q rest ih =>
    rcases List.pairwise_cons.mp h with ⟨hq, hrest⟩
    unfold insertByScore
    by_cases hge : scoreOf p ≥ scoreOf q
    · rw [if_pos hge]
      refine List.Pairwise.cons ?_ h
      intro b hb
      rcases List.mem_cons.mp hb with hb | hb
      · subst hb; exact hge
      · exact le_trans (hq b hb) hge
    · rw [if_neg hge]
      refine List.Pairwise.cons ?_ (ih hrest)
      intro b hb
      rcases List.mem_cons.mp ((insertByScore_perm p rest).mem_iff.mp hb)
        with hb | hb
      · subst hb; exact le_of_lt (lt_of_not_ge hge)
      · exact hq b hb

theorem sorted_by_score_desc_pairwise (l : List Product) :
    List.Pairwise (fun a b => scoreOf b ≤ scoreOf a) (sorted_by_score_desc l) := by
  induction l with
  | nil => simp [sorted_by_score_desc]
  | cons p rest ih => exact pairwise_insertByScore p _ ih

theorem filter_insertByScore (p : Product) (l : List Product) (s : Int) :
    (insertByScore p l).filter (fun x => scoreOf x == s) =
      if scoreOf p == s then p :: l.filter (fun x => scoreOf x == s)
      else l.filter (fun x => scoreOf x == s) := by
  induction l with
  | nil =>
    by_cases hp : (scoreOf p == s) = true <;>
      simp [insertByScore, List.filter, hp]
  | cons q rest ih =>
    by_cases hge : scoreOf p ≥ scoreOf q
    · simp only [insertByScore, if_pos hge]
      by_cases hp : (scoreOf p == s) = true <;>
        simp [List.filter_cons, hp]
    · simp only [insertByScore, if_neg hge]
      rw [List.filter_cons, ih]
      by_cases hp : (scoreOf p == s) = true
      · have hq : (scoreOf q == s) = false := by
          have h1 : scoreOf p < scoreOf q := lt_of_not_ge hge
          have h2 : scoreOf p = s := by simpa using hp
          simp only [beq_eq_false_iff_ne, ne_eq]
          omega
        simp [hp, hq, List.filter_cons]
      · simp [hp, List.filter_cons]

theorem filter_sorted_by_score_desc (l : List Product) (s : Int) :
    (sorted_by_score_desc l).filter (fun x => scoreOf x == s) =
      l.filter (fun x => scoreOf x == s) := by
  induction l with
  | nil => rfl
  | cons p rest ih =>
    simp only [sorted_by_score_desc]
    rw [filter_insertByScore, ih, List.filter_cons]

/-- Claim C5: the ranking stage returns a permutation of the final product
mapping's values, sorted by best-frame quality score descending; for every
score value, the products carrying that score appear in exactly their
original (insertion) order. -/
theorem ranking_spec (l : List Product) :
    (sorted_by_score_desc l).Perm l ∧
    List.Pairwise (fun a b => scoreOf b ≤ scoreOf a) (sorted_by_score_desc l) ∧
    ∀ s : Int, (sorted_by_score_desc l).filter (fun x => scoreOf x == s) =
      l.filter (fun x => scoreOf x == s) :=
  ⟨sorted_by_score_desc_perm l, sorted_by_score_desc_pairwise l,
    filter_sorted_by_score_desc l⟩

/-- Witness for `ranking_spec`: a concrete two-product mapping. -/
theorem ranking_spec_witness :
    (sorted_by_score_desc
        [⟨"A", "A", ⟨0, 0, 3, 0⟩, none, none⟩,
         ⟨"B", "B", ⟨1, 0, 9, 0⟩, none, none⟩]).Perm
      [⟨"A", "A", ⟨0, 0, 3, 0⟩, none, none⟩,
       ⟨"B", "B", ⟨1, 0, 9, 0⟩, none, none⟩] :=
  (ranking_spec
    [⟨"A", "A", ⟨0, 0, 3, 0⟩, none, none⟩,
     ⟨"B", "B", ⟨1, 0, 9, 0⟩, none, none⟩]).1

/-! ### process_video (app.py lines 356-438)

Modelled from frame extraction onwards (URL validation and download are
external acquisition steps preceding the modelled scope; claims C6, C8 and
C10 all condition on extraction having succeeded).  The enhancement branch's
external outcomes are oracles: `enhanced_b64` is the image produced by the
generation service (`None` on any failure, including prompt building), and
`save_ok` tells whether persisting it to disk succeeded (a failed save keeps
the already-attached `enhanced_image_base64` but never sets the path). -/

structure Response where
  success : Bool
  total_frames_analyzed : Nat
  products : List Product
deriving Repr, DecidableEq

/-- The enhancement side branch (app.py lines 389-427): mutates only the
top-ranked product, attaching the enhanced image (and, when the save
succeeds, its path). -/
def enhance_top (enhanced_b64 : Option String) (save_ok : Bool)
    (out_path : String) : List Product → List Product
  | [] => []
  | top :: rest =>
    match enhanced_b64 with
    | none => top :: rest
    | some b =>
      if save_ok then
        { top with enhanced_image_base64 := some b,
                   enhanced_image_path := some out_path } :: rest
      else
        { top with enhanced_image_base64 := some b } :: rest

def process_video (frames : List Frame)
    (classify : Frame → Except Unit String) (product_title : Option String)
    (enhanced_b64 : Option String) (save_ok : Bool) (out_path : String) :
    Except String Response :=
  if frames.isEmpty then .error "No frames extracted from video"
  else
    let products := analyze_frames frames classify product_title
    let ps := sorted_by_score_desc products
    .ok ⟨true, frames.length, enhance_top enhanced_b64 save_ok out_path ps⟩

/-! ### Per-frame failure resilience (claim C6) -/

theorem analyze_one_frame_error (pt : Option String) (st : AggState)
    (f : Frame) : analyze_one_frame pt st f (.error ()) = st := rfl

theorem analyze_frames_state_all_fail (frames : List Frame)
    (classify : Frame → Except Unit String) (pt : Option String)
    (hc : ∀ fr, classify fr = .error ()) :
    analyze_frames_state frames classify pt = initState := by
  unfold analyze_frames_state
  generalize sample_frames frames = fl
  induction fl with
  | nil => rfl
  | cons f rest ih =>
    rw [List.foldl_cons, hc f, analyze_one_frame_error]
    exact ih

/-- Claim C6: a classifier failure on a frame leaves the aggregation state
untouched (the aggregator is never invoked for that frame) and, when every
classifier call fails but frames were extracted, the run still returns a
success response with an empty products list. -/
theorem per_frame_failure_resilience :
    (∀ (pt : Option String) (st : AggState) (f : Frame),
        analyze_one_frame pt st f (.error ()) = st) ∧
    (∀ (frames : List Frame) (classify : Frame → Except Unit String)
        (pt : Option String) (e : Option String) (so : Bool) (path : String),
        frames ≠ [] → (∀ fr, classify fr = .error ()) →
        process_video frames classify pt e so path =
          .ok ⟨true, frames.length, []⟩) := by
  refine ⟨analyze_one_frame_error, ?_⟩
  intro frames classify pt e so path hne hc
  unfold process_video
  rw [if_neg (by simpa using hne)]
  rw [analyze_frames, analyze_frames_state_all_fail frames classify pt hc]
  rfl

/-- Witness for `per_frame_failure_resilience`: a one-frame run whose only
classifier call fails returns success with no products. -/
theorem per_frame_failure_resilience_witness :
    process_video [demoFrame] (fun _ => .error ()) none none true "" =
      .ok ⟨true, 1, []⟩ :=
  per_frame_failure_resilience.2 [demoFrame] (fun _ => .error ()) none none
    true "" (by decide) (fun _ => rfl)

/-! ### Enhancement is a no-op on the primary result (claim C8) -/

def NoEnh (p : Product) : Prop :=
  p.enhanced_image_base64 = none ∧ p.enhanced_image_path = none

def stripEnh (p : Product) : Product :=
  { p with enhanced_image_base64 := none, enhanced_image_path := none }

theorem stripEnh_eq_self (p : Product) (h : NoEnh p) : stripEnh p = p := by
  obtain ⟨h1, h2⟩ := h
  cases p with
  | mk t n bf e1 e2 =>
    simp only [stripEnh]
    simp only at h1 h2
    rw [h1, h2]

theorem dget_mem {β : Type} (d : List (String × β)) (k : String) (v : β)
    (h : dget d k = some v) : (k, v) ∈ d := by
  induction d with
  | nil => simp [dget] at h
  | cons hd tl ih =>
    obtain ⟨k', v'⟩ := hd
    by_cases hk : k' = k
    · subst hk
      simp only [dget, if_pos rfl] at h
      injection h with h'
      subst h'
      exact List.mem_cons_self _ _
    · simp only [dget, if_neg hk] at h
      exact List.mem_cons_of_mem _ (ih h)

/-- The aggregator never writes the enhancement fields. -/
def NoEnhInv (st : AggState) : Prop := ∀ x ∈ st.products, NoEnh x.2

theorem noEnhInv_init : NoEnhInv initState := by
  intro x hx
  simp [initState] at hx

theorem noEnhInv_observeCore (pt : Option String) (f : Frame) (st : AggState)
    (k : String) (q0 : Int) (h : NoEnhInv st) :
    NoEnhInv (observeCore pt f st k q0) := by
  intro x hx
  unfold observeCore at hx
  cases hd : dget st.best_frames k with
  | none =>
    rw [hd] at hx
    simp only at hx
    rcases mem_dset _ _ _ _ hx with hx | hx
    · subst hx
      exact ⟨rfl, rfl⟩
    · exact h x hx
  | some old =>
    rw [hd] at hx
    simp only at hx
    by_cases hq : adjust pt k q0 > old.quality_score
    · rw [if_pos hq] at hx
      simp only at hx
      cases hp2 : dget st.products k with
      | none =>
        rw [hp2] at hx
        exact h x hx
      | some p' =>
        rw [hp2] at hx
        rcases mem_dset _ _ _ _ hx with hx | hx
        · subst hx
          have hp' := h (k, p') (dget_mem _ _ _ hp2)
          exact ⟨hp'.1, hp'.2⟩
        · exact h x hx
    · rw [if_neg hq] at hx
      exact h x hx

theorem noEnhInv_processEntries (pt : Option String) (f : Frame)
    (entries : List JVal) :
    ∀ st : AggState, NoEnhInv st → NoEnhInv (processEntries pt f st entries) := by
  induction entries with
  | nil => intro st h; exact h
  | cons e rest ih =>
    intro st h
    unfold processEntries
    cases he : observeJ pt f st e with
    | none => exact h
    | some st2 =>
      obtain ⟨n, q, hst2⟩ := observeJ_some pt f st e st2 he
      subst hst2
      exact ih _ (noEnhInv_observeCore pt f st n q h)

theorem noEnhInv_analyze_one_frame (pt : Option String) (st : AggState)
    (f : Frame) (response : Except Unit String) (h : NoEnhInv st) :
    NoEnhInv (analyze_one_frame pt st f response) := by
  cases response with
  | error e => exact h
  | ok raw =>
    rw [analyze_one_frame_ok]
    cases json_loads (clean_response raw.data) with
    | none => exact h
    | some v =>
      simp only
      cases extractDetected v with
      | none => exact h
      | some detected => exact noEnhInv_processEntries pt f detected st h

theorem noEnhInv_foldl (pt : Option String)
    (classify : Frame → Except Unit String) (fl : List Frame) :
    ∀ st : AggState, NoEnhInv st →
      NoEnhInv (fl.foldl
        (fun st f => analyze_one_frame pt st f (classify f)) st) := by
  induction fl with
  | nil => intro st h; exact h
  | cons f rest ih =>
    intro st h
    exact ih _ (noEnhInv_analyze_one_frame pt st f (classify f) h)

theorem analyze_frames_noEnh (frames : List Frame)
    (classify : Frame → Except Unit String) (pt : Option String) :
    ∀ p ∈ analyze_frames frames classify pt, NoEnh p := by
  intro p hp
  unfold analyze_frames at hp
  rcases List.mem_map.mp hp with ⟨x, hx, hxp⟩
  rw [← hxp]
  exact noEnhInv_foldl pt classify (sample_frames frames) initState
    noEnhInv_init x hx

theorem sorted_noEnh (l : List Product) (h : ∀ p ∈ l, NoEnh p) :
    ∀ p ∈ sorted_by_score_desc l, NoEnh p :=
  fun p hp => h p ((sorted_by_score_desc_perm l).mem_iff.mp hp)

theorem map_stripEnh_id (l : List Product) (h : ∀ p ∈ l, NoEnh p) :
    l.map stripEnh = l := by
  induction l with
  | nil => rfl
  | cons p rest ih =>
    rw [List.map_cons, stripEnh_eq_self p (h p (List.mem_cons_self _ _)),
      ih (fun q hq => h q (List.mem_cons_of_mem _ hq))]

theorem enhance_top_none (so : Bool) (path : String) (l : List Product) :
    enhance_top none so path l = l := by
  cases l <;> rfl

theorem enhance_top_tail (e : Option String) (so : Bool) (path : String)
    (l : List Product) : (enhance_top e so path l).tail = l.tail := by
  cases l with
  | nil => rfl
  | cons top rest =>
    cases e with
    | none => rfl
    | some b => cases so <;> rfl

theorem map_stripEnh_enhance_top (e : Option String) (so : Bool)
    (path : String) (l : List Product) (h : ∀ p ∈ l, NoEnh p) :
    (enhance_top e so path l).map stripEnh = l := by
  cases l with
  | nil => rfl
  | cons top rest =>
    have htop : stripEnh top = top :=
      stripEnh_eq_self top (h top (List.mem_cons_self _ _))
    have hrest : rest.map stripEnh = rest :=
      map_stripEnh_id rest (fun q hq => h q (List.mem_cons_of_mem _ hq))
    cases e with
    | none =>
      rw [enhance_top_none, List.map_cons, htop, hrest]
    | some b =>
      cases so <;>
        · show stripEnh _ :: rest.map stripEnh = top :: rest
          rw [hrest]
          exact congrArg (· :: rest) htop

/-- Claim C8: relative to a run whose enhancement stage produced nothing,
a run with any enhancement outcome returns the same success flag, frame
count and product list, except that the top-ranked product may additionally
carry the enhanced-image field (and path); stripping those two optional
fields recovers the unenhanced result exactly, all non-top products are
untouched, the top product's pre-existing fields are untouched, and a `none`
enhancement outcome changes nothing at all. -/
theorem enhancement_no_op (frames : List Frame)
    (classify : Frame → Except Unit String) (pt : Option String)
    (e : Option String) (so : Bool) (path : String) (r0 r : Response)
    (h0 : process_video frames classify pt none true path = .ok r0)
    (h : process_video frames classify pt e so path = .ok r) :
    r.success = r0.success ∧
    r.total_frames_analyzed = r0.total_frames_analyzed ∧
    r.products.map stripEnh = r0.products ∧
    r.products.tail = r0.products.tail ∧
    (e = none → r = r0) ∧
    (∀ p, r.products.head? = some p → ∃ p0, r0.products.head? = some p0 ∧
      p.title = p0.title ∧ p.name = p0.name ∧ p.best_frame = p0.best_frame) ∧
    (∀ b, e = some b → ∀ p, r.products.head? = some p →
      p.enhanced_image_base64 = some b) := by
  unfold process_video at h0 h
  by_cases hne : frames.isEmpty
  · rw [if_pos hne] at h0
    exact absurd h0 (by simp)
  · rw [if_neg hne] at h0 h
    injection h0 with h0'
    injection h with h'
    subst h0'
    subst h'
    have hnoenh : ∀ p ∈ sorted_by_score_desc
        (analyze_frames frames classify pt), NoEnh p :=
      sorted_noEnh _ (analyze_frames_noEnh frames classify pt)
    refine ⟨rfl, rfl, ?_, ?_, ?_, ?_, ?_⟩
    · show (enhance_top e so path _).map stripEnh = enhance_top none true path _
      rw [enhance_top_none, map_stripEnh_enhance_top _ _ _ _ hnoenh]
    · show (enhance_top e so path _).tail = (enhance_top none true path _).tail
      rw [enhance_top_none, enhance_top_tail]
    · intro he
      subst he
      rw [enhance_top_none, enhance_top_none]
    · intro p hp
      revert hp
      show (enhance_top e so path _).head? = some p → _
      rw [enhance_top_none]
      generalize sorted_by_score_desc (analyze_frames frames classify pt) = ps
      cases ps with
      | nil =>
        intro hp
        cases e with
        | none => exact absurd hp (by simp [enhance_top])
        | some b => exact absurd hp (by simp [enhance_top])
      | cons top rest =>
        intro hp
        refine ⟨top, rfl, ?_⟩
        cases e with
        | none =>
          simp only [enhance_top, List.head?] at hp
          injection hp with hp'
          rw [← hp']
          exact ⟨rfl, rfl, rfl⟩
        | some b =>
          cases so <;>
            · simp only [enhance_top, List.head?] at hp
              injection hp with hp'
              rw [← hp']
              exact ⟨rfl, rfl, rfl⟩
    · intro b hb p hp
      subst hb
      revert hp
      show (enhance_top (some b) so path _).head? = some p → _
      generalize sorted_by_score_desc (analyze_frames frames classify pt) = ps
      cases ps with
      | nil => intro hp; exact absurd hp (by simp [enhance_top])
      | cons top rest =>
        intro hp
        cases so <;>
          · simp only [enhance_top, List.head?] at hp
            injection hp with hp'
            rw [← hp']

def mugText : String :=
  "\x7b\"products\":[\x7b\"name\":\"Mug\",\"quality_score\":7,\"visible\":true\x7d]\x7d"

/-- Witness for `enhancement_no_op`: a concrete enhanced run strips back to
the unenhanced product list. -/
theorem enhancement_no_op_witness :
    ([({ title := "Mug", name := "Mug", best_frame := ⟨0, 0, 7, 0⟩,
         enhanced_image_base64 := some "E",
         enhanced_image_path := some "p" } : Product)].map stripEnh) =
      [⟨"Mug", "Mug", ⟨0, 0, 7, 0⟩, none, none⟩] :=
  (enhancement_no_op [demoFrame] (fun _ => .ok mugText) none (some "E") true
    "p" ⟨true, 1, [⟨"Mug", "Mug", ⟨0, 0, 7, 0⟩, none, none⟩]⟩
    ⟨true, 1, [⟨"Mug", "Mug", ⟨0, 0, 7, 0⟩, some "E", some "p"⟩]⟩
    rfl rfl).2.2.1

/-! ### total_frames_analyzed (claim C10) -/

/-- Claim C10: the success response's `total_frames_analyzed` is the count
of extracted frames handed to `analyze_frames`, not the (at most 50) sampled
frames actually classified — for a 300-frame extraction the sampled count is
strictly smaller. -/
theorem total_frames_analyzed_spec :
    (∀ (frames : List Frame) (classify : Frame → Except Unit String)
        (pt : Option String) (e : Option String) (so : Bool) (path : String)
        (r : Response),
        process_video frames classify pt e so path = .ok r →
        r.total_frames_analyzed = frames.length) ∧
    (sample_frames (List.range 300)).length < (List.range 300).length := by
  constructor
  · intro frames classify pt e so path r h
    unfold process_video at h
    by_cases hne : frames.isEmpty
    · rw [if_pos hne] at h
      exact absurd h (by simp)
    · rw [if_neg hne] at h
      injection h with h'
      rw [← h']
  · decide

/-- Witness for `total_frames_analyzed_spec`: a one-frame run reports one
frame analyzed. -/
theorem total_frames_analyzed_spec_witness :
    (⟨true, 1, []⟩ : Response).total_frames_analyzed = [demoFrame].length :=
  total_frames_analyzed_spec.1 [demoFrame] (fun _ => .error ()) none none true
    "" ⟨true, 1, []⟩ rfl

end AIPI
